import Mathlib

/-!
Verification development for the vx_bevy client/server synchronization layer
and chunk lifecycle manager.

The Rust sources embedded here:
* `src/crates/vx_core/src/world/world.rs` — chunk visibility, creation,
  generation queue, unload and destruction systems;
* `src/client/src/voxel/networking/sync.rs` — client reconciliation
  (`sync_players`), chat send (`send_text`) and receive;
* `src/server/src/main.rs` — server connect handling (`server_update_system`).

Machine integers (`i32` coordinates, entity indices) are modelled as `Int` /
`Nat`; none of the verified properties involve wrap-around arithmetic.
Bevy ECS queries are modelled as association lists / lookup functions, and
deferred `Commands` as explicit command lists applied after a pass.
-/

namespace VxBevy

/-- `bevy::math::IVec2`: a 2-component integer vector (chunk coordinate). -/
structure IVec2 where
  x : Int
  y : Int
deriving DecidableEq, Repr

/-- Componentwise addition, as in `pos + (dx, dy).into()`. -/
def IVec2.add (a b : IVec2) : IVec2 :=
  ⟨a.x + b.x, a.y + b.y⟩

/-- Componentwise subtraction, as in `*key - pos`. -/
def IVec2.sub (a b : IVec2) : IVec2 :=
  ⟨a.x - b.x, a.y - b.y⟩

/-- The inclusive integer range `a..=b` of a Rust `for` loop, in ascending
order. Empty when `b < a`. -/
def rangeIncl (a b : Int) : List Int :=
  (List.range (b - a + 1).toNat).map (fun (i : Nat) => a + (i : Int))

/-- Entities are Bevy `Entity` handles; the model allocates them as
consecutive naturals (Bevy guarantees a spawned entity is distinct from
every live entity, which is all the proofs use). -/
abbrev Entity := Nat

/-- Association-list lookup; the model of `HashMap::get` /
`HashMap::contains_key`. -/
def lookupA {α : Type} [DecidableEq α] {β : Type} (m : List (α × β)) (k : α) : Option β :=
  match m with
  | [] => none
  | (k', v) :: t => if k' = k then some v else lookupA t k

/-- `HashMap::insert`: replaces the binding if the key is present, otherwise
appends a new binding. -/
def insertA {α : Type} [DecidableEq α] {β : Type} (m : List (α × β)) (k : α) (v : β) :
    List (α × β) :=
  match m with
  | [] => [(k, v)]
  | (k', v') :: t => if k' = k then (k, v) :: t else (k', v') :: insertA t k v

/-- `HashMap::remove`: drops the binding for `k` (the first one; under the
no-duplicate-keys invariant, the only one). -/
def removeA {α : Type} [DecidableEq α] {β : Type} (m : List (α × β)) (k : α) :
    List (α × β) :=
  match m with
  | [] => []
  | (k', v') :: t => if k' = k then t else (k', v') :: removeA t k

/-! ### Chunk visibility (`update_visible_chunks`) -/

/-- `ChunkLoadState` from `world.rs`. -/
inductive ChunkLoadState where
  | Load
  | Unload
  | Generate
  | Done
deriving DecidableEq, Repr

/-- A chunk component: its coordinate. The voxel payload `block_data` is
owned by the external terrain-generator interface and carries no information
used by any verified property, so it is not modelled. -/
structure ChunkRec where
  pos : IVec2
  state : ChunkLoadState
deriving DecidableEq, Repr

/-- World state of the chunk lifecycle manager: the `ChunkMap` resource, the
ECS view of chunk entities, the `VecDeque<ChunkLoadRequest>` resource (head =
front of the deque), and the fresh-entity allocator. -/
structure ChunkWorld where
  map : List (IVec2 × Entity)
  chunks : List (Entity × ChunkRec)
  queue : List Entity
  next : Entity
deriving DecidableEq, Repr

/-- The unsorted candidate list built by the double loop in
`update_visible_chunks`: offsets `(dx, dy)` with `dx² + dy² < R²` are kept,
and candidates already present in the chunk map are skipped. -/
def loadRadiusChunks (viewDist : Int) (pos : IVec2) (map : List (IVec2 × Entity)) :
    List IVec2 :=
  (rangeIncl (-viewDist) viewDist).flatMap (fun dx =>
    (rangeIncl (-viewDist) viewDist).filterMap (fun dy =>
      if dx ^ 2 + dy ^ 2 ≥ viewDist ^ 2 then none
      else if lookupA map (pos.add ⟨dx, dy⟩) = none then some (pos.add ⟨dx, dy⟩)
      else none))

/-- The sort key of `load_radius_chunks.sort_by_key(|a| a.x.pow(2) + a.y.pow(2))`:
the squared norm of the absolute chunk coordinate. -/
def originKey (a : IVec2) : Int :=
  a.x ^ 2 + a.y ^ 2

/-- Stable insertion of an element into a list sorted by `key`. -/
def insertByKey (key : IVec2 → Int) (a : IVec2) : List IVec2 → List IVec2
  | [] => [a]
  | b :: t => if key a ≤ key b then a :: b :: t else b :: insertByKey key a t

/-- Stable sort by `key`. Rust's `sort_by_key` is stable, and every stable
sort produces the same output list, so insertion sort is a faithful model. -/
def sortByKey (key : IVec2 → Int) : List IVec2 → List IVec2
  | [] => []
  | a :: t => insertByKey key a (sortByKey key t)

/-- The batch of `ChunkSpawnRequest`s sent in one run of
`update_visible_chunks`. -/
def spawnRequests (viewDist : Int) (pos : IVec2) (map : List (IVec2 × Entity)) :
    List IVec2 :=
  sortByKey originKey (loadRadiusChunks viewDist pos map)

/-- The `ChunkDespawnRequest`s sent in one run of `update_visible_chunks`:
resident chunks whose `|Δx|² + |Δy|²` exceeds `R²`. -/
def despawnRequests (viewDist : Int) (pos : IVec2) (map : List (IVec2 × Entity)) :
    List (IVec2 × Entity) :=
  map.filterMap (fun ke =>
    let delta := ke.1.sub pos
    if |delta.x| ^ 2 + |delta.y| ^ 2 > viewDist ^ 2 then some ke else none)

/-! ### Lemmas about the basic containers -/

theorem mem_rangeIncl {a b x : Int} : x ∈ rangeIncl a b ↔ a ≤ x ∧ x ≤ b := by
  unfold rangeIncl
  rw [List.mem_map]
  constructor
  · rintro ⟨i, hi, rfl⟩
    rw [List.mem_range] at hi
    omega
  · rintro ⟨h1, h2⟩
    refine ⟨(x - a).toNat, ?_, ?_⟩
    · rw [List.mem_range]; omega
    · omega

theorem lookupA_eq_none_iff {α β : Type} [DecidableEq α] {m : List (α × β)} {k : α} :
    lookupA m k = none ↔ k ∉ m.map Prod.fst := by
  induction m with
  | nil => simp [lookupA]
  | cons p t ih =>
    obtain ⟨k', v⟩ := p
    simp only [lookupA, List.map_cons, List.mem_cons]
    by_cases h : k' = k
    · subst h
      simp
    · simp [h, ih, Ne.symm h]

theorem lookupA_isSome_of_mem {α β : Type} [DecidableEq α] {m : List (α × β)} {k : α} {v : β}
    (h : (k, v) ∈ m) : lookupA m k ≠ none := by
  induction m with
  | nil => simp at h
  | cons p t ih =>
    obtain ⟨k', v'⟩ := p
    rcases List.mem_cons.mp h with h' | h'
    · cases h'
      simp [lookupA]
    · by_cases hk : k' = k
      · simp [lookupA, hk]
      · simpa [lookupA, hk] using ih h'

/-! ### Permutation and sortedness of the spawn-request sort -/

theorem insertByKey_perm (key : IVec2 → Int) (a : IVec2) (l : List IVec2) :
    (insertByKey key a l).Perm (a :: l) := by
  induction l with
  | nil => simp [insertByKey]
  | cons b t ih =>
    simp only [insertByKey]
    split
    · exact List.Perm.refl _
    · exact ((ih.cons b).trans (List.Perm.swap a b t))

theorem sortByKey_perm (key : IVec2 → Int) (l : List IVec2) :
    (sortByKey key l).Perm l := by
  induction l with
  | nil => exact List.Perm.refl _
  | cons a t ih => exact (insertByKey_perm key a (sortByKey key t)).trans (ih.cons a)

theorem mem_sortByKey {key : IVec2 → Int} {l : List IVec2} {c : IVec2} :
    c ∈ sortByKey key l ↔ c ∈ l :=
  (sortByKey_perm key l).mem_iff

theorem insertByKey_pairwise {key : IVec2 → Int} {a : IVec2} {l : List IVec2}
    (h : l.Pairwise (fun u v => key u ≤ key v)) :
    (insertByKey key a l).Pairwise (fun u v => key u ≤ key v) := by
  induction l with
  | nil => simp [insertByKey]
  | cons b t ih =>
    rw [List.pairwise_cons] at h
    simp only [insertByKey]
    split
    · refine List.pairwise_cons.mpr ⟨?_, List.pairwise_cons.mpr h⟩
      intro x hx
      rcases List.mem_cons.mp hx with rfl | hx
      · assumption
      · exact le_trans (by assumption) (h.1 x hx)
    · refine List.pairwise_cons.mpr ⟨?_, ih h.2⟩
      intro x hx
      rcases List.mem_cons.mp ((insertByKey_perm key a t).mem_iff.mp hx) with rfl | hx
      · omega
      · exact h.1 x hx

theorem sortByKey_pairwise (key : IVec2 → Int) (l : List IVec2) :
    (sortByKey key l).Pairwise (fun u v => key u ≤ key v) := by
  induction l with
  | nil => simp [sortByKey]
  | cons a t ih => exact insertByKey_pairwise ih

/-! ### Membership in the spawn / despawn request batches -/

theorem mem_loadRadiusChunks {R : Int} (hR : 0 ≤ R) {pos : IVec2}
    {map : List (IVec2 × Entity)} {c : IVec2} :
    c ∈ loadRadiusChunks R pos map ↔
      (∃ dx dy : Int, dx ^ 2 + dy ^ 2 < R ^ 2 ∧ c = pos.add ⟨dx, dy⟩) ∧
        lookupA map c = none := by
  simp only [loadRadiusChunks, List.mem_flatMap, List.mem_filterMap, mem_rangeIncl]
  constructor
  · rintro ⟨dx, hdx, dy, hdy, hsome⟩
    split at hsome
    · exact absurd hsome (by simp)
    · split at hsome
      · rename_i hcond hlook
        cases Option.some.inj hsome
        exact ⟨⟨dx, dy, by omega, rfl⟩, hlook⟩
      · exact absurd hsome (by simp)
  · rintro ⟨⟨dx, dy, hlt, rfl⟩, hlook⟩
    have hdx : -R ≤ dx ∧ dx ≤ R := by
      constructor <;> nlinarith [sq_nonneg dx, sq_nonneg dy, sq_nonneg (dx + R), sq_nonneg (dx - R)]
    have hdy : -R ≤ dy ∧ dy ≤ R := by
      constructor <;> nlinarith [sq_nonneg dx, sq_nonneg dy, sq_nonneg (dy + R), sq_nonneg (dy - R)]
    refine ⟨dx, hdx, dy, hdy, ?_⟩
    rw [if_neg (by omega), if_pos hlook]

theorem mem_despawnRequests {R : Int} {pos : IVec2} {map : List (IVec2 × Entity)}
    {k : IVec2} {e : Entity} :
    (k, e) ∈ despawnRequests R pos map ↔
      (k, e) ∈ map ∧ (k.x - pos.x) ^ 2 + (k.y - pos.y) ^ 2 > R ^ 2 := by
  simp only [despawnRequests, List.mem_filterMap]
  constructor
  · rintro ⟨⟨k', e'⟩, hmem, hsome⟩
    split at hsome
    · rename_i hgt
      cases Option.some.inj hsome
      refine ⟨hmem, ?_⟩
      simpa [IVec2.sub, sq_abs] using hgt
    · exact absurd hsome (by simp)
  · rintro ⟨hmem, hgt⟩
    exact ⟨(k, e), hmem, by rw [if_pos (by simpa [IVec2.sub, sq_abs] using hgt)]⟩

/-- The squared Euclidean distance of chunk coordinate `a` from the viewer's
containing chunk coordinate `pos` (in chunk units). -/
def viewerKey (pos a : IVec2) : Int :=
  (a.x - pos.x) ^ 2 + (a.y - pos.y) ^ 2

/-- C3: for every viewer chunk position and view distance `R ≥ 0`, the set of
chunk coordinates for which `update_visible_chunks` emits a spawn request in
one tick is exactly the set of coordinates `pos + (dx, dy)` with
`dx² + dy² < R²` that are not already keys of the `ChunkMap`. -/
theorem spawnRequests_mem_iff (R : Int) (hR : 0 ≤ R) (pos : IVec2)
    (map : List (IVec2 × Entity)) (c : IVec2) :
    c ∈ spawnRequests R pos map ↔
      (∃ dx dy : Int, dx ^ 2 + dy ^ 2 < R ^ 2 ∧ c = pos.add ⟨dx, dy⟩) ∧
        lookupA map c = none := by
  rw [spawnRequests]
  exact mem_sortByKey.trans (mem_loadRadiusChunks hR)

theorem spawnRequests_mem_iff_witness :
    (0 : Int) ≤ 3 ∧
      (⟨1, 1⟩ ∈ spawnRequests 3 ⟨0, 0⟩ [] ↔
        (∃ dx dy : Int, dx ^ 2 + dy ^ 2 < 3 ^ 2 ∧ (⟨1, 1⟩ : IVec2) = IVec2.add ⟨0, 0⟩ ⟨dx, dy⟩) ∧
          lookupA ([] : List (IVec2 × Entity)) ⟨1, 1⟩ = none) :=
  ⟨by decide, spawnRequests_mem_iff 3 (by decide) ⟨0, 0⟩ [] ⟨1, 1⟩⟩

/-- C4 counterexample: with the viewer's chunk at `(10, 0)`, view distance 2
and an empty chunk map, the emitted spawn-request sequence is *not* sorted by
ascending squared distance from the viewer's chunk: `sort_by_key` in
`update_visible_chunks` keys on the absolute coordinate `a.x² + a.y²`, so
`(9, 0)` (distance 1 from the viewer) is requested before `(10, 0)`
(distance 0). -/
theorem spawnRequests_not_viewer_sorted :
    ¬ (spawnRequests 2 ⟨10, 0⟩ []).Pairwise
        (fun a b => viewerKey ⟨10, 0⟩ a ≤ viewerKey ⟨10, 0⟩ b) := by
  decide

/-- C4 amended: the sequence of chunk spawn requests emitted in one tick is
sorted by ascending squared Euclidean distance of the candidate chunk
coordinate from the *world origin* `(0, 0)` (not from the viewer's chunk). -/
theorem spawnRequests_origin_sorted (R : Int) (pos : IVec2)
    (map : List (IVec2 × Entity)) :
    (spawnRequests R pos map).Pairwise (fun a b => originKey a ≤ originKey b) :=
  sortByKey_pairwise originKey (loadRadiusChunks R pos map)

/-- C5: a despawn request is emitted for a resident chunk iff the squared
Euclidean distance between its coordinate and the viewer's chunk coordinate
is strictly greater than `R²`; in particular, for residents
`{(0,0), (1,0), (5,5)}`, viewer chunk `(0,0)` and `R = 3`, exactly `(5,5)` is
queued for despawn. -/
theorem despawnRequests_mem_iff_and_example :
    (∀ (R : Int) (pos : IVec2) (map : List (IVec2 × Entity)) (k : IVec2) (e : Entity),
      (k, e) ∈ despawnRequests R pos map ↔
        (k, e) ∈ map ∧ (k.x - pos.x) ^ 2 + (k.y - pos.y) ^ 2 > R ^ 2) ∧
    (despawnRequests 3 ⟨0, 0⟩ [(⟨0, 0⟩, 0), (⟨1, 0⟩, 1), (⟨5, 5⟩, 2)]).map Prod.fst =
      [⟨5, 5⟩] :=
  ⟨fun _ _ _ _ _ => mem_despawnRequests, by decide⟩

/-! ### Chunk generation (`generate_chunks`) -/

/-- `VecDeque::pop_back`: removes and returns the last element. -/
def popBack {α : Type} : List α → Option (List α × α)
  | [] => none
  | [a] => some ([], a)
  | a :: b :: t => (popBack (b :: t)).map (fun qe => (a :: qe.1, qe.2))

/-- In-place update of the load state of chunk entity `e`
(a `query.get_mut(e)` hit followed by `*load_state = s`). -/
def setChunkState (e : Entity) (s : ChunkLoadState)
    (chunks : List (Entity × ChunkRec)) : List (Entity × ChunkRec) :=
  chunks.map (fun p => if p.1 = e then (p.1, ⟨p.2.pos, s⟩) else p)

/-- The loop body of `generate_chunks`, iterated `n` times: pop a request
from the back of the queue; if the popped entity still has its chunk
components, run the (external) world generator on its voxel buffer and mark
the chunk `Done`. A failed pop or a missing entity skips the body but the
loop keeps iterating. -/
def genLoop : Nat → ChunkWorld → ChunkWorld
  | 0, w => w
  | n + 1, w =>
    match popBack w.queue with
    | none => genLoop n w
    | some (q, e) =>
      match lookupA w.chunks e with
      | some _ => genLoop n { w with queue := q, chunks := setChunkState e .Done w.chunks }
      | none => genLoop n { w with queue := q }

/-- `generate_chunks`: `for _ in 0..(DEFAULT_VIEW_DISTANCE / 2)`, drain one
request per iteration. -/
def generateChunks (viewDist : Int) (w : ChunkWorld) : ChunkWorld :=
  genLoop (viewDist / 2).toNat w

/-- The entities popped by `n` iterations of the `generate_chunks` loop on
queue `q`, in pop order. -/
def genDrained : Nat → List Entity → List Entity
  | 0, _ => []
  | n + 1, q =>
    match popBack q with
    | none => []
    | some (q', e) => e :: genDrained n q'

theorem popBack_eq_none {α : Type} {l : List α} : popBack l = none ↔ l = [] := by
  induction l with
  | nil => simp [popBack]
  | cons a t ih =>
    cases t with
    | nil => simp [popBack]
    | cons b t' =>
      simp only [popBack, Option.map_eq_none']
      rw [ih]
      simp

theorem popBack_append {α : Type} (q : List α) (e : α) : popBack (q ++ [e]) = some (q, e) := by
  induction q with
  | nil => rfl
  | cons a q ih =>
    cases q with
    | nil => rfl
    | cons b t =>
      have ih' : popBack (b :: (t ++ [e])) = some (b :: t, e) := by simpa using ih
      simp [popBack, ih']

theorem popBack_eq_some {α : Type} {l q : List α} {e : α} :
    popBack l = some (q, e) ↔ l = q ++ [e] := by
  constructor
  · intro h
    induction l generalizing q e with
    | nil => simp [popBack] at h
    | cons a t ih =>
      cases t with
      | nil =>
        simp only [popBack, Option.some.injEq, Prod.mk.injEq] at h
        obtain ⟨rfl, rfl⟩ := h
        rfl
      | cons b t' =>
        simp only [popBack] at h
        rcases Option.map_eq_some'.mp h with ⟨⟨q1, e1⟩, hpop, heq⟩
        obtain ⟨rfl, rfl⟩ := Prod.mk.injEq .. |>.mp heq
        rw [ih hpop]
        rfl
  · rintro rfl
    exact popBack_append q e

theorem lookupA_setChunkState (e : Entity) (s : ChunkLoadState)
    (chunks : List (Entity × ChunkRec)) (x : Entity) :
    lookupA (setChunkState e s chunks) x =
      (lookupA chunks x).map (fun c => if x = e then ⟨c.pos, s⟩ else c) := by
  induction chunks with
  | nil => rfl
  | cons p t ih =>
    obtain ⟨e', c'⟩ := p
    simp only [setChunkState, List.map_cons]
    by_cases hx : e' = e
    · rw [if_pos hx]
      by_cases he : e' = x
      · subst he
        simp [lookupA, hx]
      · simp only [lookupA, if_neg he]
        rw [← setChunkState]
        exact ih
    · rw [if_neg hx]
      by_cases he : e' = x
      · subst he
        simp [lookupA, hx]
      · simp only [lookupA, if_neg he]
        rw [← setChunkState]
        exact ih

theorem genLoop_queue_len (n : Nat) (w : ChunkWorld) :
    (genLoop n w).queue.length = w.queue.length - min n w.queue.length := by
  induction n generalizing w with
  | zero => simp [genLoop]
  | succ n ih =>
    rcases h : popBack w.queue with _ | ⟨q, e⟩
    · have hq : w.queue = [] := popBack_eq_none.mp h
      simp only [genLoop, h]
      rw [ih w, hq]
      simp
    · have hq : w.queue = q ++ [e] := popBack_eq_some.mp h
      simp only [genLoop, h]
      have hlen : w.queue.length = q.length + 1 := by simp [hq]
      cases hl : lookupA w.chunks e with
      | some c =>
        rw [ih]
        simp only [hlen]
        omega
      | none =>
        rw [ih]
        simp only [hlen]
        omega

theorem genDrained_eq (n : Nat) (q : List Entity) :
    genDrained n q = (q.drop (q.length - min n q.length)).reverse := by
  induction n generalizing q with
  | zero => simp [genDrained]
  | succ n ih =>
    rcases h : popBack q with _ | ⟨q', e⟩
    · have hq : q = [] := popBack_eq_none.mp h
      subst hq
      simp [genDrained, h]
    · have hq : q = q' ++ [e] := popBack_eq_some.mp h
      subst hq
      simp only [genDrained, h, ih]
      have hlen : (q' ++ [e]).length = q'.length + 1 := by simp
      have hmin : (q' ++ [e]).length - min (n + 1) (q' ++ [e]).length
          = q'.length - min n q'.length := by
        simp only [hlen]
        omega
      rw [hmin, List.drop_append_of_le_length (by omega)]
      simp

theorem genLoop_preserves_done (n : Nat) (w : ChunkWorld) (e : Entity) (p : IVec2)
    (h : lookupA w.chunks e = some ⟨p, .Done⟩) :
    lookupA (genLoop n w).chunks e = some ⟨p, .Done⟩ := by
  induction n generalizing w with
  | zero => simpa [genLoop] using h
  | succ n ih =>
    rcases hp : popBack w.queue with _ | ⟨q, e'⟩
    · simp only [genLoop, hp]
      exact ih w h
    · simp only [genLoop, hp]
      cases hl : lookupA w.chunks e' with
      | some c =>
        refine ih _ ?_
        rw [lookupA_setChunkState]
        rw [h]
        by_cases he : e = e' <;> simp [he]
      | none => exact ih _ h

theorem genLoop_done (n : Nat) (w : ChunkWorld) (e : Entity)
    (hmem : e ∈ genDrained n w.queue) (c : ChunkRec)
    (h : lookupA w.chunks e = some c) :
    lookupA (genLoop n w).chunks e = some ⟨c.pos, .Done⟩ := by
  induction n generalizing w c with
  | zero => simp [genDrained] at hmem
  | succ n ih =>
    rcases hp : popBack w.queue with _ | ⟨q, e'⟩
    · simp [genDrained, hp] at hmem
    · simp only [genDrained, hp] at hmem
      simp only [genLoop, hp]
      cases hl : lookupA w.chunks e' with
      | some c' =>
        rcases List.mem_cons.mp hmem with rfl | hmem'
        · -- the popped entity itself: it is marked Done, then preserved
          refine genLoop_preserves_done n _ e c.pos ?_
          rw [lookupA_setChunkState, h]
          simp
        · -- drained later: the state update of `e'` preserves `pos`
          by_cases he : e = e'
          · subst he
            refine ih _ hmem' ⟨c.pos, .Done⟩ ?_ |>.trans (by simp)
            rw [lookupA_setChunkState, h]
            simp
          · refine ih _ hmem' c ?_
            rw [lookupA_setChunkState, h]
            simp [he]
      | none =>
        rcases List.mem_cons.mp hmem with rfl | hmem'
        · rw [hl] at h
          cases h
        · exact ih _ hmem' c h

/-- C6: per tick, `generate_chunks` drains at most `⌊R/2⌋` requests, drains
exactly `⌊R/2⌋` when at least that many are pending, pops from the back of
the queue (the drained requests are the queue's last `min ⌊R/2⌋ len`
entries), and each drained request whose chunk entity still exists is
generated and moved to `Done`; with `R = 10` and 20 pending requests,
exactly 5 are removed in one tick and 15 remain. -/
theorem generateChunks_spec (R : Int) (w : ChunkWorld) :
    (w.queue.length - (generateChunks R w).queue.length ≤ (R / 2).toNat) ∧
    ((R / 2).toNat ≤ w.queue.length →
      w.queue.length - (generateChunks R w).queue.length = (R / 2).toNat) ∧
    (genDrained (R / 2).toNat w.queue =
      (w.queue.drop (w.queue.length - min (R / 2).toNat w.queue.length)).reverse) ∧
    (∀ e, e ∈ genDrained (R / 2).toNat w.queue → ∀ c, lookupA w.chunks e = some c →
      lookupA (generateChunks R w).chunks e = some ⟨c.pos, ChunkLoadState.Done⟩) ∧
    ((generateChunks 10 ⟨[], [], List.range 20, 0⟩).queue.length = 15) := by
  refine ⟨?_, ?_, genDrained_eq _ _, ?_, ?_⟩
  · rw [generateChunks, genLoop_queue_len]
    omega
  · intro hcap
    rw [generateChunks, genLoop_queue_len]
    omega
  · intro e hmem c hl
    exact genLoop_done _ w e hmem c hl
  · decide

/-! ### Client reconciliation (`sync_players`, `NetworkedEntities` loop)

`Vec3` / `Quat` are `f32` vectors; the snapshot loop performs no arithmetic
on them — only the `!=` comparison on translations and copying — so they are
modelled as opaque types `V`, `Q`, with the IEEE `!=` test on translations
modelled as an arbitrary boolean `neq` (no axioms: this covers `NaN != NaN`
being true and `-0.0 != 0.0` being false). -/

/-- `bevy::transform::Transform` restricted to the fields the sync code
touches; the written transform is `Transform { rotation, translation,
..Default::default() }`, whose remaining field is `scale = Vec3::ONE`. -/
structure Transform3 (V Q : Type) where
  translation : V
  rotation : Q
  scale : V
deriving DecidableEq, Repr

/-- `NetworkedEntities`: index-aligned parallel arrays. -/
structure Snapshot (V Q : Type) where
  entities : List Nat
  translations : List V
  rotations : List Q

/-- The client-side state read by the `NetworkedEntities` loop of
`sync_players`: `network_mapping` (server entity → client entity),
the `ControlledPlayer` marker query `p1`, and the `Transform` query `p0`. -/
structure ClientWorld (V Q : Type) where
  mapping : Nat → Option Nat
  controlled : Nat → Bool
  transforms : Nat → Option (Transform3 V Q)

/-- The `cmds.entity(*entity).insert(transform)` commands emitted by one run
of the `NetworkedEntities` loop, in emission order. The Rust loop runs
`for i in 0..entities.len()` and indexes `translations[i]` / `rotations[i]`,
which panics when those arrays are shorter; the theorems assume the
equal-length snapshot invariant, under which the index loop coincides with
this zip. -/
def snapCmds {V Q : Type} (neq : V → V → Bool) (scaleOne : V)
    (w : ClientWorld V Q) (s : Snapshot V Q) : List (Nat × Transform3 V Q) :=
  (s.entities.zip (s.translations.zip s.rotations)).filterMap (fun etr =>
    match w.mapping etr.1 with
    | none => none
    | some e =>
      if w.controlled e then none
      else
        match w.transforms e with
        | none => none
        | some cur =>
          if neq etr.2.1 cur.translation then
            some (e, ⟨etr.2.1, etr.2.2, scaleOne⟩)
          else none)

/-- Deferred-command flush: the inserts are applied, in order, after the
system has finished reading. -/
def applyCmds {V Q : Type} (tr : Nat → Option (Transform3 V Q)) :
    List (Nat × Transform3 V Q) → (Nat → Option (Transform3 V Q))
  | [] => tr
  | (e, T) :: rest => applyCmds (fun x => if x = e then some T else tr x) rest

/-- One application of a `NetworkedEntities` snapshot: emit the commands
against the current world, then flush them. `network_mapping` and the
`ControlledPlayer` markers are not touched by this loop. -/
def applySnapshot {V Q : Type} (neq : V → V → Bool) (scaleOne : V)
    (w : ClientWorld V Q) (s : Snapshot V Q) : ClientWorld V Q :=
  { w with transforms := applyCmds w.transforms (snapCmds neq scaleOne w s) }

theorem applyCmds_of_not_key {V Q : Type} (tr : Nat → Option (Transform3 V Q))
    (cmds : List (Nat × Transform3 V Q)) (e : Nat)
    (h : ∀ p ∈ cmds, p.1 ≠ e) : applyCmds tr cmds e = tr e := by
  induction cmds generalizing tr with
  | nil => rfl
  | cons p rest ih =>
    obtain ⟨e', T⟩ := p
    have hne : e' ≠ e := h (e', T) (List.mem_cons_self _ _)
    rw [applyCmds, ih _ (fun p hp => h p (List.mem_cons_of_mem _ hp))]
    simp [Ne.symm hne]

theorem applyCmds_of_mem {V Q : Type}
    (cmds : List (Nat × Transform3 V Q)) (e : Nat) (T : Transform3 V Q) :
    (cmds.map Prod.fst).Nodup → (e, T) ∈ cmds →
      ∀ tr : Nat → Option (Transform3 V Q), applyCmds tr cmds e = some T := by
  induction cmds with
  | nil =>
    intro _ hm
    simp at hm
  | cons p rest ih =>
    intro hnd hm tr
    obtain ⟨e', T'⟩ := p
    rw [List.map_cons, List.nodup_cons] at hnd
    rcases List.mem_cons.mp hm with h' | h'
    · obtain ⟨rfl, rfl⟩ := Prod.mk.injEq .. |>.mp h'.symm
      rw [applyCmds]
      rw [applyCmds_of_not_key]
      · simp
      · intro p hp hpe
        exact hnd.1 (by rw [← hpe]; exact List.mem_map.mpr ⟨p, hp, rfl⟩)
    · exact ih hnd.2 h' _

theorem mem_snapCmds {V Q : Type} (neq : V → V → Bool) (scaleOne : V)
    (w : ClientWorld V Q) (s : Snapshot V Q) (e : Nat) (T : Transform3 V Q) :
    (e, T) ∈ snapCmds neq scaleOne w s ↔
      ∃ etr ∈ s.entities.zip (s.translations.zip s.rotations),
        w.mapping etr.1 = some e ∧ w.controlled e = false ∧
        ∃ cur, w.transforms e = some cur ∧ neq etr.2.1 cur.translation = true ∧
          T = ⟨etr.2.1, etr.2.2, scaleOne⟩ := by
  rw [snapCmds, List.mem_filterMap]
  constructor
  · rintro ⟨etr, hmem, hsome⟩
    refine ⟨etr, hmem, ?_⟩
    split at hsome
    · cases hsome
    · rename_i e' hmap
      split at hsome
      · cases hsome
      · rename_i hctl
        split at hsome
        · cases hsome
        · rename_i cur htr
          split at hsome
          · rename_i hneq
            obtain ⟨rfl, rfl⟩ := Prod.mk.injEq .. |>.mp (Option.some.inj hsome)
            exact ⟨hmap, by simpa using hctl, cur, htr, hneq, rfl⟩
          · cases hsome
  · rintro ⟨etr, hmem, hmap, hctl, cur, htr, hneq, rfl⟩
    refine ⟨etr, hmem, ?_⟩
    simp [hmap, hctl, htr, hneq]

theorem filterMap_sublist_of_refines {α β : Type} (f g : α → Option β)
    (h : ∀ x, g x = none ∨ g x = f x) (l : List α) :
    (l.filterMap g).Sublist (l.filterMap f) := by
  induction l with
  | nil => simp
  | cons a t ih =>
    rcases h a with h0 | h1
    · rw [List.filterMap_cons, h0]
      rcases hf : f a with _ | b
      · rw [List.filterMap_cons, hf]
        exact ih
      · rw [List.filterMap_cons, hf]
        exact ih.cons b
    · rw [List.filterMap_cons, List.filterMap_cons, h1]
      rcases hf : f a with _ | b
      · exact ih
      · exact ih.cons₂ b

theorem nodup_filterMap_unique {α β : Type} {f : α → Option β} {l : List α}
    (h : (l.filterMap f).Nodup) {b : β} :
    ∀ x ∈ l, ∀ y ∈ l, f x = some b → f y = some b → x = y := by
  induction l with
  | nil => simp
  | cons a t ih =>
    intro x hx y hy hfx hfy
    rw [List.filterMap_cons] at h
    rcases hfa : f a with _ | b'
    · rw [hfa] at h
      rcases List.mem_cons.mp hx with rfl | hx'
      · rw [hfx] at hfa; cases hfa
      · rcases List.mem_cons.mp hy with rfl | hy'
        · rw [hfy] at hfa; cases hfa
        · exact ih h x hx' y hy' hfx hfy
    · rw [hfa] at h
      rw [List.nodup_cons] at h
      rcases List.mem_cons.mp hx with rfl | hx'
      · rcases List.mem_cons.mp hy with rfl | hy'
        · rfl
        · exfalso
          rw [hfx] at hfa
          cases hfa
          exact h.1 (List.mem_filterMap.mpr ⟨y, hy', hfy⟩)
      · rcases List.mem_cons.mp hy with rfl | hy'
        · exfalso
          rw [hfy] at hfa
          cases hfa
          exact h.1 (List.mem_filterMap.mpr ⟨x, hx', hfx⟩)
        · exact ih h.2 x hx' y hy' hfx hfy

theorem snapCmds_controlled_false {V Q : Type} (neq : V → V → Bool) (scaleOne : V)
    (w : ClientWorld V Q) (s : Snapshot V Q) :
    ∀ p ∈ snapCmds neq scaleOne w s, w.controlled p.1 = false := by
  intro p hp
  obtain ⟨e, T⟩ := p
  rcases (mem_snapCmds neq scaleOne w s e T).mp hp with ⟨etr, _, _, hctl, _⟩
  exact hctl

/-- C1: applying a `NetworkedEntities` snapshot never mutates the transform
of the entity flagged as locally controlled (`ControlledPlayer`), regardless
of the snapshot's contents. -/
theorem applySnapshot_self_authority {V Q : Type} (neq : V → V → Bool) (scaleOne : V)
    (w : ClientWorld V Q) (s : Snapshot V Q) (e : Nat) (h : w.controlled e = true) :
    (applySnapshot neq scaleOne w s).transforms e = w.transforms e := by
  rw [applySnapshot]
  apply applyCmds_of_not_key
  intro p hp hpe
  have hc := snapCmds_controlled_false neq scaleOne w s p hp
  rw [hpe, h] at hc
  cases hc

/-- Example client world for evaluating the reconciliation theorems: server
entity 5 maps to local entity 3, which is the controlled player; entity 4 is
a remote player. -/
def exClientWorld : ClientWorld Int Int where
  mapping := fun sid => if sid = 5 then some 3 else if sid = 6 then some 4 else none
  controlled := fun e => e == 3
  transforms := fun e => if e = 3 then some ⟨0, 0, 1⟩ else if e = 4 then some ⟨9, 9, 1⟩ else none

/-- Example snapshot carrying both the controlled and a remote player. -/
def exSnapshot : Snapshot Int Int where
  entities := [5, 6]
  translations := [42, 10]
  rotations := [7, 8]

theorem applySnapshot_self_authority_witness :
    exClientWorld.controlled 3 = true ∧
      (applySnapshot (fun a b => a != b) 1 exClientWorld exSnapshot).transforms 3 =
        exClientWorld.transforms 3 :=
  ⟨rfl, applySnapshot_self_authority (fun a b => a != b) 1 exClientWorld exSnapshot 3 rfl⟩

theorem snapshot_zip_map_fst {V Q : Type} (s : Snapshot V Q)
    (hlt : s.translations.length = s.entities.length)
    (hlr : s.rotations.length = s.entities.length) :
    (s.entities.zip (s.translations.zip s.rotations)).map Prod.fst = s.entities := by
  apply List.map_fst_zip
  rw [List.length_zip]
  omega

theorem snapCmds_refines {V Q : Type} (neq : V → V → Bool) (scaleOne : V)
    (w : ClientWorld V Q) (etr : Nat × V × Q) :
    ((match w.mapping etr.1 with
      | none => none
      | some e =>
        if w.controlled e then none
        else
          match w.transforms e with
          | none => none
          | some cur =>
            if neq etr.2.1 cur.translation then
              some (e, (⟨etr.2.1, etr.2.2, scaleOne⟩ : Transform3 V Q))
            else none).map Prod.fst) = none ∨
    ((match w.mapping etr.1 with
      | none => none
      | some e =>
        if w.controlled e then none
        else
          match w.transforms e with
          | none => none
          | some cur =>
            if neq etr.2.1 cur.translation then
              some (e, (⟨etr.2.1, etr.2.2, scaleOne⟩ : Transform3 V Q))
            else none).map Prod.fst) = w.mapping etr.1 := by
  rcases hmap : w.mapping etr.1 with _ | e
  · left; rfl
  · rcases hctl : w.controlled e with _ | _
    · rcases htr : w.transforms e with _ | cur
      · left; simp [hctl, htr]
      · rcases hneq : neq etr.2.1 cur.translation with _ | _
        · left; simp [hctl, htr, hneq]
        · right; simp [hctl, htr, hneq]
    · left; simp [hctl]

theorem snapshot_filterMap_eq {V Q : Type} (w : ClientWorld V Q) (s : Snapshot V Q)
    (hlt : s.translations.length = s.entities.length)
    (hlr : s.rotations.length = s.entities.length) :
    (s.entities.zip (s.translations.zip s.rotations)).filterMap
      (fun etr => w.mapping etr.1) = s.entities.filterMap w.mapping := by
  have h1 := List.filterMap_map (Prod.fst : Nat × V × Q → Nat) w.mapping
    (s.entities.zip (s.translations.zip s.rotations))
  rw [snapshot_zip_map_fst s hlt hlr] at h1
  rw [h1]
  rfl

theorem snapCmds_keys_nodup {V Q : Type} (neq : V → V → Bool) (scaleOne : V)
    (w : ClientWorld V Q) (s : Snapshot V Q)
    (hnd : (s.entities.filterMap w.mapping).Nodup)
    (hlt : s.translations.length = s.entities.length)
    (hlr : s.rotations.length = s.entities.length) :
    ((snapCmds neq scaleOne w s).map Prod.fst).Nodup := by
  have hsub : ((snapCmds neq scaleOne w s).map Prod.fst).Sublist
      ((s.entities.zip (s.translations.zip s.rotations)).filterMap
        (fun etr => w.mapping etr.1)) := by
    rw [snapCmds, List.map_filterMap]
    exact filterMap_sublist_of_refines (fun etr => w.mapping etr.1) _
      (fun etr => snapCmds_refines neq scaleOne w etr) _
  rw [snapshot_filterMap_eq w s hlt hlr] at hsub
  exact List.Nodup.sublist hsub hnd

theorem snapshot_resolve_unique {V Q : Type} (w : ClientWorld V Q) (s : Snapshot V Q)
    (hnd : (s.entities.filterMap w.mapping).Nodup)
    (hlt : s.translations.length = s.entities.length)
    (hlr : s.rotations.length = s.entities.length) {e : Nat} :
    ∀ x ∈ s.entities.zip (s.translations.zip s.rotations),
      ∀ y ∈ s.entities.zip (s.translations.zip s.rotations),
        w.mapping x.1 = some e → w.mapping y.1 = some e → x = y := by
  have h : ((s.entities.zip (s.translations.zip s.rotations)).filterMap
      (fun etr => w.mapping etr.1)).Nodup := by
    rw [snapshot_filterMap_eq w s hlt hlr]
    exact hnd
  exact nodup_filterMap_unique h

/-- C7: re-applying an identical `NetworkedEntities` snapshot immediately
after it was applied once produces no mutation of any entity's transform the
second time: for each entry the incoming translation is compared against the
current translation and the transform is written only if they differ, so the
post-state of the second application equals the post-state of the first.
Requires the snapshot well-formedness invariants (equal-length parallel
arrays, no two entries resolving to the same client entity). -/
theorem applySnapshot_idempotent {V Q : Type} (neq : V → V → Bool) (scaleOne : V)
    (w : ClientWorld V Q) (s : Snapshot V Q)
    (hnd : (s.entities.filterMap w.mapping).Nodup)
    (hlt : s.translations.length = s.entities.length)
    (hlr : s.rotations.length = s.entities.length) (e : Nat) :
    (applySnapshot neq scaleOne (applySnapshot neq scaleOne w s) s).transforms e =
      (applySnapshot neq scaleOne w s).transforms e := by
  by_cases hc : ∃ T2, (e, T2) ∈ snapCmds neq scaleOne (applySnapshot neq scaleOne w s) s
  · obtain ⟨T2, hT2⟩ := hc
    have hnd2keys : ((snapCmds neq scaleOne (applySnapshot neq scaleOne w s) s).map
        Prod.fst).Nodup :=
      snapCmds_keys_nodup neq scaleOne (applySnapshot neq scaleOne w s) s hnd hlt hlr
    have hL : (applySnapshot neq scaleOne (applySnapshot neq scaleOne w s) s).transforms e
        = some T2 :=
      applyCmds_of_mem _ e T2 hnd2keys hT2 _
    rw [hL]
    obtain ⟨etr, hmem, hmap, hctl, cur2, htr2, hneq2, hT2eq⟩ :=
      (mem_snapCmds neq scaleOne (applySnapshot neq scaleOne w s) s e T2).mp hT2
    subst hT2eq
    rw [htr2]
    rcases htr1 : w.transforms e with _ | cur1
    · exfalso
      have hno1 : ∀ p ∈ snapCmds neq scaleOne w s, p.1 ≠ e := by
        intro p hp hpe
        obtain ⟨e0, T0⟩ := p
        have hpe' : e0 = e := hpe
        subst hpe'
        obtain ⟨etr', hmem', hmap', hctl', cur', htr', hneq', hT0'⟩ :=
          (mem_snapCmds neq scaleOne w s e0 T0).mp hp
        rw [htr1] at htr'
        cases htr'
      have hw1 : (applySnapshot neq scaleOne w s).transforms e = w.transforms e :=
        applyCmds_of_not_key _ _ _ hno1
      rw [htr2, htr1] at hw1
      cases hw1
    · by_cases hne1 : neq etr.2.1 cur1.translation = true
      · have hc1 : (e, (⟨etr.2.1, etr.2.2, scaleOne⟩ : Transform3 V Q)) ∈
            snapCmds neq scaleOne w s :=
          (mem_snapCmds neq scaleOne w s e _).mpr
            ⟨etr, hmem, hmap, hctl, cur1, htr1, hne1, rfl⟩
        have hnd1keys : ((snapCmds neq scaleOne w s).map Prod.fst).Nodup :=
          snapCmds_keys_nodup neq scaleOne w s hnd hlt hlr
        have hw1 : (applySnapshot neq scaleOne w s).transforms e
            = some ⟨etr.2.1, etr.2.2, scaleOne⟩ :=
          applyCmds_of_mem _ e _ hnd1keys hc1 _
        rw [htr2] at hw1
        rw [Option.some.inj hw1]
      · exfalso
        have hno1 : ∀ p ∈ snapCmds neq scaleOne w s, p.1 ≠ e := by
          intro p hp hpe
          obtain ⟨e0, T0⟩ := p
          have hpe' : e0 = e := hpe
          subst hpe'
          obtain ⟨etr', hmem', hmap', hctl', cur', htr', hneq', hT0'⟩ :=
            (mem_snapCmds neq scaleOne w s e0 T0).mp hp
          have hxy : etr' = etr :=
            snapshot_resolve_unique w s hnd hlt hlr etr' hmem' etr hmem hmap' hmap
          subst hxy
          rw [htr1] at htr'
          obtain rfl := Option.some.inj htr'
          exact hne1 hneq'
        have hw1 : (applySnapshot neq scaleOne w s).transforms e = w.transforms e :=
          applyCmds_of_not_key _ _ _ hno1
        rw [htr2, htr1] at hw1
        obtain rfl := Option.some.inj hw1
        exact hne1 hneq2
  · have hno : ∀ p ∈ snapCmds neq scaleOne (applySnapshot neq scaleOne w s) s, p.1 ≠ e := by
      intro p hp hpe
      apply hc
      refine ⟨p.2, ?_⟩
      have hpeq : p = (e, p.2) := by
        rw [← hpe]
      rw [← hpeq]
      exact hp
    exact applyCmds_of_not_key _ _ _ hno

theorem applySnapshot_idempotent_witness :
    (exSnapshot.entities.filterMap exClientWorld.mapping).Nodup ∧
    exSnapshot.translations.length = exSnapshot.entities.length ∧
    exSnapshot.rotations.length = exSnapshot.entities.length ∧
    (applySnapshot (fun a b => a != b) 1
        (applySnapshot (fun a b => a != b) 1 exClientWorld exSnapshot)
        exSnapshot).transforms 4 =
      (applySnapshot (fun a b => a != b) 1 exClientWorld exSnapshot).transforms 4 :=
  ⟨by decide, by decide, by decide,
    applySnapshot_idempotent (fun a b => a != b) 1 exClientWorld exSnapshot
      (by decide) (by decide) (by decide) 4⟩

/-! ### Receive-loop decoding (`sync_players`, `server_update_system`)

Every receive loop in the sources has the shape
`while let Some(message) = receive_message(..) { let v = bincode::deserialize(&message).unwrap(); ... }`.
`deserialize` is the external bincode codec (`decode(bytes) → Message |
DecodeError`); `unwrap` on a `DecodeError` panics the process, modelled as
the whole drain returning `none`. -/

/-- Drain one channel: decode each pending message with `dec`, unwrapping
the result as the source does. A `none` from the decoder aborts the whole
drain (the panic); otherwise the decoded values are produced in order. -/
def drainUnwrap {M : Type} (dec : List Nat → Option M) : List (List Nat) → Option (List M)
  | [] => some []
  | m :: rest =>
    match dec m with
    | none => none
    | some v => (drainUnwrap dec rest).map (fun vs => v :: vs)

/-- Modelled from the spec: a minimal instance of the wire-codec contract
`decode(bytes) -> Message | DecodeError` (the actual codec, bincode, is an
external crate not under `src/`): a one-byte buffer decodes to its byte,
any other buffer is a `DecodeError`. Used to exhibit a concrete corrupt
buffer. -/
def decodeByte : List Nat → Option Nat
  | [b] => some b
  | _ => none

/-- C2 counterexample: draining `[[1], [], [2]]` where the middle buffer is
corrupt returns `none` (the `unwrap` panics and the channel is *not* drained
further), instead of dropping the corrupt buffer and continuing, which would
yield the decodable messages `[1, 2]`. -/
theorem drainUnwrap_panics_on_corrupt :
    drainUnwrap decodeByte [[1], [], [2]] = none ∧
      [[1], [], [2]].filterMap decodeByte = [1, 2] := by
  decide

/-- C2 amended: a decode failure is fatal to the whole process, not to the
single message: the receive loops `unwrap` every deserialization result, so
the drain panics as soon as any pending buffer fails to decode; only when
every message decodes does the drain succeed, processing each message in
order. -/
theorem drainUnwrap_spec {M : Type} (dec : List Nat → Option M) (msgs : List (List Nat)) :
    ((∀ m ∈ msgs, (dec m).isSome) → drainUnwrap dec msgs = some (msgs.filterMap dec)) ∧
    ((∃ m ∈ msgs, dec m = none) → drainUnwrap dec msgs = none) := by
  induction msgs with
  | nil =>
    constructor
    · intro _; rfl
    · rintro ⟨m, hm, _⟩
      simp at hm
  | cons m rest ih =>
    constructor
    · intro h
      have hm := h m (List.mem_cons_self _ _)
      rcases hd : dec m with _ | v
      · rw [hd] at hm; cases hm
      · rw [drainUnwrap, hd, List.filterMap_cons, hd]
        rw [ih.1 (fun x hx => h x (List.mem_cons_of_mem _ hx))]
        rfl
    · rintro ⟨x, hx, hdx⟩
      rcases List.mem_cons.mp hx with rfl | hx'
      · rw [drainUnwrap, hdx]
      · rw [drainUnwrap]
        rcases hd : dec m with _ | v
        · rfl
        · rw [ih.2 ⟨x, hx', hdx⟩]
          rfl

theorem drainUnwrap_spec_witness :
    drainUnwrap decodeByte [[1], [2]] = some [1, 2] ∧
      drainUnwrap decodeByte [[1], []] = none :=
  ⟨((drainUnwrap_spec decodeByte [[1], [2]]).1 (by decide)).trans (by decide),
   (drainUnwrap_spec decodeByte [[1], []]).2 ⟨[], by decide, rfl⟩⟩

/-! ### Server connect handling (`server_update_system`) -/

/-- `ServerMessages` lifecycle variants as constructed by the server:
`PlayerCreate { id, entity }` and `PlayerRemove { id }`. -/
inductive ServerMsg where
  | playerCreate (id : Nat) (entity : Entity)
  | playerRemove (id : Nat)
deriving DecidableEq, Repr

/-- A message emission on the reliable `ServerMessages` channel: either a
targeted `send_message(client, ..)` or a `broadcast_message(..)`. -/
inductive OutEvent where
  | sendTo (client : Nat) (msg : ServerMsg)
  | broadcast (msg : ServerMsg)
deriving DecidableEq, Repr

/-- `ServerEvent::ClientConnected` handling in `server_update_system`:
send one `PlayerCreate` per existing player entity (the `players` query) to
the new client, spawn the new player's authoritative entity at a randomized
position (the position does not appear in the lifecycle messages), insert
it into the lobby, and broadcast its `PlayerCreate` to all clients. -/
def handleClientConnected (players : List (Entity × Nat)) (lobby : List (Nat × Entity))
    (clientId : Nat) (newEntity : Entity) : List OutEvent × List (Nat × Entity) :=
  (players.map (fun p => OutEvent.sendTo clientId (.playerCreate p.2 p.1)) ++
     [OutEvent.broadcast (.playerCreate clientId newEntity)],
   insertA lobby clientId newEntity)

/-- C8: on client connect the server sends to the new client exactly one
`PlayerCreate` per pre-existing player, then broadcasts exactly one
`PlayerCreate` for the new player to all clients (the new client included);
no other lifecycle message is produced by the connect event, and the
broadcast comes last. -/
theorem handleClientConnected_messages (players : List (Entity × Nat))
    (lobby : List (Nat × Entity)) (clientId : Nat) (newEntity : Entity)
    (hnd : players.Nodup) :
    (∀ p ∈ players,
      (handleClientConnected players lobby clientId newEntity).1.count
        (OutEvent.sendTo clientId (.playerCreate p.2 p.1)) = 1) ∧
    ((handleClientConnected players lobby clientId newEntity).1.count
        (OutEvent.broadcast (.playerCreate clientId newEntity)) = 1) ∧
    (∀ m ∈ (handleClientConnected players lobby clientId newEntity).1,
      (∃ p ∈ players, m = OutEvent.sendTo clientId (.playerCreate p.2 p.1)) ∨
        m = OutEvent.broadcast (.playerCreate clientId newEntity)) ∧
    ((handleClientConnected players lobby clientId newEntity).1.getLast? =
      some (OutEvent.broadcast (.playerCreate clientId newEntity))) := by
  have hinj : Function.Injective
      (fun p : Entity × Nat => OutEvent.sendTo clientId (.playerCreate p.2 p.1)) := by
    rintro ⟨a1, b1⟩ ⟨a2, b2⟩ h
    simp only [OutEvent.sendTo.injEq, ServerMsg.playerCreate.injEq] at h
    obtain ⟨hb, ha⟩ := h.2
    cases ha
    cases hb
    rfl
  refine ⟨?_, ?_, ?_, ?_⟩
  · intro p hp
    rw [handleClientConnected, List.count_append]
    rw [List.count_map_of_injective players _ hinj p]
    rw [List.count_eq_one_of_mem hnd hp]
    simp [List.count_singleton]
  · rw [handleClientConnected, List.count_append]
    rw [List.count_eq_zero.mpr, List.count_singleton]
    · simp
    · intro hmem
      rcases List.mem_map.mp hmem with ⟨p, _, hp⟩
      cases hp
  · intro m hm
    rw [handleClientConnected] at hm
    rcases List.mem_append.mp hm with h' | h'
    · rcases List.mem_map.mp h' with ⟨p, hp, rfl⟩
      exact Or.inl ⟨p, hp, rfl⟩
    · right
      simpa using h'
  · rw [handleClientConnected]
    exact List.getLast?_concat _

theorem handleClientConnected_messages_witness :
    ([((100 : Entity), 1), (200, 2)] : List (Entity × Nat)).Nodup ∧
    ((∀ p ∈ ([((100 : Entity), 1), (200, 2)] : List (Entity × Nat)),
      (handleClientConnected [(100, 1), (200, 2)] [] 7 300).1.count
        (OutEvent.sendTo 7 (.playerCreate p.2 p.1)) = 1) ∧
    ((handleClientConnected [(100, 1), (200, 2)] [] 7 300).1.count
        (OutEvent.broadcast (.playerCreate 7 300)) = 1) ∧
    (∀ m ∈ (handleClientConnected [(100, 1), (200, 2)] [] 7 300).1,
      (∃ p ∈ ([((100 : Entity), 1), (200, 2)] : List (Entity × Nat)),
        m = OutEvent.sendTo 7 (.playerCreate p.2 p.1)) ∨
        m = OutEvent.broadcast (.playerCreate 7 300)) ∧
    ((handleClientConnected [(100, 1), (200, 2)] [] 7 300).1.getLast? =
      some (OutEvent.broadcast (.playerCreate 7 300)))) :=
  ⟨by decide, handleClientConnected_messages [(100, 1), (200, 2)] [] 7 300 (by decide)⟩

/-! ### Chat (`send_text`, `ChatChannel` receive loop) -/

/-- The `ChatMessage` resource: the client's single outgoing chat slot
(also the decoded shape of an incoming chat message). -/
structure ChatSlot where
  message : String
  client_id : Nat
deriving DecidableEq, Repr

/-- `send_text`: when a pending message exists, serialize
`(&message, &client_id)` onto the `Chat` channel, then reset both fields so
the message is never re-sent; with an empty slot, send nothing. -/
def sendText (c : ChatSlot) : List (String × Nat) × ChatSlot :=
  if c.message = "" then ([], c)
  else ([(c.message, c.client_id)], ⟨"", 0⟩)

/-- The `ChatChannel` receive loop of `sync_players`: each incoming chat
message overwrites the single `DisplayMessage` slot, so the last one wins. -/
def drainChatRecv (msgs : List ChatSlot) (display : String) : String :=
  msgs.foldl (fun _ m => m.message) display

/-- C9: the outgoing chat state is a one-slot queue: whenever a non-empty
pending message exists it is sent on the chat channel and the slot is reset
to the empty string within the same tick, so a later tick (with no newly
queued message) sends nothing; an incoming chat message replaces the single
"last received" display slot. -/
theorem chat_one_slot (c : ChatSlot) (h : c.message ≠ "") :
    (sendText c).1 = [(c.message, c.client_id)] ∧
    (sendText c).2.message = "" ∧
    (sendText (sendText c).2).1 = [] ∧
    (∀ (msgs : List ChatSlot) (m : ChatSlot) (d : String),
      drainChatRecv (msgs ++ [m]) d = m.message) := by
  refine ⟨?_, ?_, ?_, ?_⟩
  · rw [sendText, if_neg h]
  · rw [sendText, if_neg h]
  · simp [sendText, h]
  · intro msgs m d
    rw [drainChatRecv, List.foldl_append]
    rfl

theorem chat_one_slot_witness :
    (("hello" : String) ≠ "") ∧
    ((sendText ⟨"hello", 4⟩).1 = [("hello", 4)] ∧
    (sendText ⟨"hello", 4⟩).2.message = "" ∧
    (sendText (sendText ⟨"hello", 4⟩).2).1 = [] ∧
    (∀ (msgs : List ChatSlot) (m : ChatSlot) (d : String),
      drainChatRecv (msgs ++ [m]) d = m.message)) :=
  ⟨by decide, chat_one_slot ⟨"hello", 4⟩ (by decide)⟩

/-! ### The chunk lifecycle tick (`create_chunks`, `load_chunk_data`,
`prepare_for_unload`, `destroy_chunks`)

The plugin registers `update_visible_chunks`, `create_chunks`,
`load_chunk_data`, `generate_chunks`, `prepare_for_unload`,
`mark_chunks_ready`, `destroy_chunks`. The spec's concurrency model (§5)
mandates a single-threaded tick in which despawn destruction runs after
generation completion and visibility recomputation; the tick is modelled as
that sequential composition. `mark_chunks_ready` only emits
`ChunkReadyEvent`s and mutates no modelled state, so it is omitted. -/

/-- `create_chunks`: for each spawn request, spawn a fresh chunk entity in
`Load` state (with its empty padded voxel buffer, owned by the external
generator interface) and insert it into the `ChunkMap`. Returns the world
and the just-added entities (the `Added<Chunk>` query of the same tick). -/
def createChunks : List IVec2 → ChunkWorld → ChunkWorld × List Entity
  | [], w => (w, [])
  | r :: rest, w =>
    let e := w.next
    let w1 : ChunkWorld :=
      { map := insertA w.map r e
        chunks := w.chunks ++ [(e, ⟨r, .Load⟩)]
        queue := w.queue
        next := e + 1 }
    let res := createChunks rest w1
    (res.1, e :: res.2)

/-- `load_chunk_data`: every just-added chunk in `Load` state moves to
`Generate` and its request is pushed onto the *front* of the work queue. -/
def loadChunkData : List Entity → ChunkWorld → ChunkWorld
  | [], w => w
  | e :: rest, w =>
    match lookupA w.chunks e with
    | some c =>
      match c.state with
      | .Load =>
        loadChunkData rest
          { w with chunks := setChunkState e .Generate w.chunks, queue := e :: w.queue }
      | _ => loadChunkData rest w
    | none => loadChunkData rest w

/-- `prepare_for_unload`: each despawn-requested chunk entity still alive is
marked `Unload` whatever its current state. -/
def prepareForUnload : List (IVec2 × Entity) → ChunkWorld → ChunkWorld
  | [], w => w
  | pe :: rest, w =>
    match lookupA w.chunks pe.2 with
    | some _ =>
      prepareForUnload rest { w with chunks := setChunkState pe.2 .Unload w.chunks }
    | none => prepareForUnload rest w

/-- The iteration of `destroy_chunks` over the chunk query: for every chunk
in `Unload` state, `world.remove(&chunk.pos).unwrap()` (a `none` lookup is
the panicking unwrap, aborting with `none`), and the entity *returned by the
map* is queued for (deferred) despawn. -/
def destroyLoop :
    List (Entity × ChunkRec) → List (IVec2 × Entity) → List Entity →
      Option (List (IVec2 × Entity) × List Entity)
  | [], m, acc => some (m, acc)
  | ec :: rest, m, acc =>
    match ec.2.state with
    | .Unload =>
      match lookupA m ec.2.pos with
      | none => none
      | some ent => destroyLoop rest (removeA m ec.2.pos) (ent :: acc)
    | _ => destroyLoop rest m acc

/-- `destroy_chunks`: run the removal loop, then flush the deferred
despawns. -/
def destroyChunks (w : ChunkWorld) : Option ChunkWorld :=
  match destroyLoop w.chunks w.map [] with
  | none => none
  | some (m, despawned) =>
    some { map := m
           chunks := w.chunks.filter (fun p => p.1 ∉ despawned)
           queue := w.queue
           next := w.next }

/-- The tick state just before the destruction pass: visibility
recomputation, chunk creation, data loading, generation and unload marking,
in the spec-mandated order. -/
def preDestroy (viewDist : Int) (pos : IVec2) (w : ChunkWorld) : ChunkWorld :=
  let spawns := spawnRequests viewDist pos w.map
  let despawns := despawnRequests viewDist pos w.map
  let cw := createChunks spawns w
  let w2 := loadChunkData cw.2 cw.1
  let w3 := generateChunks viewDist w2
  prepareForUnload despawns w3

/-- One full tick of the chunk lifecycle manager; `none` is the panic of the
`unwrap` in `destroy_chunks`. -/
def tick (viewDist : Int) (pos : IVec2) (w : ChunkWorld) : Option ChunkWorld :=
  destroyChunks (preDestroy viewDist pos w)

/-- Worlds reachable by the chunk lifecycle manager from the initial empty
resources, ticking with arbitrary viewer positions. -/
inductive Reachable (viewDist : Int) : ChunkWorld → Prop
  | init : Reachable viewDist ⟨[], [], [], 0⟩
  | step {w w' : ChunkWorld} (pos : IVec2) :
      Reachable viewDist w → tick viewDist pos w = some w' → Reachable viewDist w'

/-- The chunk-map/ECS consistency invariant: the `ChunkMap` and the chunk
entities are inverse views of each other, and entity ids are fresh. -/
structure Inv (w : ChunkWorld) : Prop where
  mapNodup : (w.map.map Prod.fst).Nodup
  chunksNodup : (w.chunks.map Prod.fst).Nodup
  mapChunks : ∀ p e, (p, e) ∈ w.map → ∃ c, (e, c) ∈ w.chunks ∧ c.pos = p
  chunksMap : ∀ e c, (e, c) ∈ w.chunks → lookupA w.map c.pos = some e
  fresh : ∀ e ∈ w.chunks.map Prod.fst, e < w.next

/-! ### Association-list lemmas for the lifecycle proofs -/

theorem insertA_eq_append {α β : Type} [DecidableEq α] {m : List (α × β)} {k : α}
    (h : lookupA m k = none) (v : β) : insertA m k v = m ++ [(k, v)] := by
  induction m with
  | nil => rfl
  | cons p t ih =>
    obtain ⟨k', v'⟩ := p
    rw [lookupA] at h
    by_cases hk : k' = k
    · rw [if_pos hk] at h
      cases h
    · rw [if_neg hk] at h
      rw [insertA, if_neg hk, ih h]
      rfl

theorem lookupA_append_of_none {α β : Type} [DecidableEq α] {m1 : List (α × β)}
    (m2 : List (α × β)) {k : α} (h : lookupA m1 k = none) :
    lookupA (m1 ++ m2) k = lookupA m2 k := by
  induction m1 with
  | nil => rfl
  | cons p t ih =>
    obtain ⟨k', v'⟩ := p
    rw [lookupA] at h
    by_cases hk : k' = k
    · rw [if_pos hk] at h
      cases h
    · rw [if_neg hk] at h
      rw [List.cons_append, lookupA, if_neg hk]
      exact ih h

theorem lookupA_append_of_some {α β : Type} [DecidableEq α] {m1 : List (α × β)}
    (m2 : List (α × β)) {k : α} {v : β} (h : lookupA m1 k = some v) :
    lookupA (m1 ++ m2) k = some v := by
  induction m1 with
  | nil => cases h
  | cons p t ih =>
    obtain ⟨k', v'⟩ := p
    rw [lookupA] at h
    by_cases hk : k' = k
    · rw [if_pos hk] at h
      rw [List.cons_append, lookupA, if_pos hk]
      exact h
    · rw [if_neg hk] at h
      rw [List.cons_append, lookupA, if_neg hk]
      exact ih h

theorem lookupA_mem {α β : Type} [DecidableEq α] {m : List (α × β)} {k : α} {v : β}
    (h : lookupA m k = some v) : (k, v) ∈ m := by
  induction m with
  | nil => cases h
  | cons p t ih =>
    obtain ⟨k', v'⟩ := p
    rw [lookupA] at h
    by_cases hk : k' = k
    · rw [if_pos hk] at h
      obtain rfl := Option.some.inj h
      subst hk
      exact List.mem_cons_self _ _
    · rw [if_neg hk] at h
      exact List.mem_cons_of_mem _ (ih h)

theorem lookupA_of_mem_nodup {α β : Type} [DecidableEq α] {m : List (α × β)} {k : α} {v : β}
    (hnd : (m.map Prod.fst).Nodup) (h : (k, v) ∈ m) : lookupA m k = some v := by
  induction m with
  | nil => simp at h
  | cons p t ih =>
    obtain ⟨k', v'⟩ := p
    rw [List.map_cons, List.nodup_cons] at hnd
    rcases List.mem_cons.mp h with h' | h'
    · obtain ⟨rfl, rfl⟩ := Prod.mk.injEq .. |>.mp h'.symm
      rw [lookupA, if_pos rfl]
    · rw [lookupA]
      by_cases hk : k' = k
      · exfalso
        subst hk
        exact hnd.1 (List.mem_map.mpr ⟨(k', v), h', rfl⟩)
      · rw [if_neg hk]
        exact ih hnd.2 h'

theorem removeA_sublist {α β : Type} [DecidableEq α] (m : List (α × β)) (k : α) :
    (removeA m k).Sublist m := by
  induction m with
  | nil => simp [removeA]
  | cons p t ih =>
    obtain ⟨k', v'⟩ := p
    rw [removeA]
    by_cases hk : k' = k
    · rw [if_pos hk]
      exact List.sublist_cons_self _ _
    · rw [if_neg hk]
      exact ih.cons₂ _

theorem lookupA_removeA_ne {α β : Type} [DecidableEq α] {m : List (α × β)} {k k' : α}
    (h : k' ≠ k) : lookupA (removeA m k) k' = lookupA m k' := by
  induction m with
  | nil => rfl
  | cons p t ih =>
    obtain ⟨k0, v0⟩ := p
    rw [removeA]
    by_cases hk : k0 = k
    · rw [if_pos hk, lookupA, if_neg (by rw [hk]; exact fun hh => h hh.symm)]
    · rw [if_neg hk, lookupA, lookupA]
      by_cases hk' : k0 = k'
      · rw [if_pos hk', if_pos hk']
      · rw [if_neg hk', if_neg hk']
        exact ih

theorem lookupA_removeA_self {α β : Type} [DecidableEq α] {m : List (α × β)} {k : α}
    (hnd : (m.map Prod.fst).Nodup) : lookupA (removeA m k) k = none := by
  induction m with
  | nil => rfl
  | cons p t ih =>
    obtain ⟨k0, v0⟩ := p
    rw [List.map_cons, List.nodup_cons] at hnd
    rw [removeA]
    by_cases hk : k0 = k
    · rw [if_pos hk]
      subst hk
      rw [lookupA_eq_none_iff]
      exact hnd.1
    · rw [if_neg hk, lookupA, if_neg hk]
      exact ih hnd.2

theorem assoc_value_unique {α β : Type} {m : List (α × β)} {k : α} {v1 v2 : β}
    (hnd : (m.map Prod.fst).Nodup) (h1 : (k, v1) ∈ m) (h2 : (k, v2) ∈ m) : v1 = v2 := by
  induction m with
  | nil => simp at h1
  | cons p t ih =>
    obtain ⟨k', v'⟩ := p
    rw [List.map_cons, List.nodup_cons] at hnd
    rcases List.mem_cons.mp h1 with ha | ha
    · rcases List.mem_cons.mp h2 with hb | hb
      · have e1 := Prod.mk.injEq .. |>.mp ha.symm
        have e2 := Prod.mk.injEq .. |>.mp hb.symm
        rw [← e1.2, ← e2.2]
      · exfalso
        have e1 := Prod.mk.injEq .. |>.mp ha.symm
        apply hnd.1
        rw [e1.1]
        exact List.mem_map.mpr ⟨(k, v2), hb, rfl⟩
    · rcases List.mem_cons.mp h2 with hb | hb
      · exfalso
        have e2 := Prod.mk.injEq .. |>.mp hb.symm
        apply hnd.1
        rw [e2.1]
        exact List.mem_map.mpr ⟨(k, v1), ha, rfl⟩
      · exact ih hnd.2 ha hb

theorem setChunkState_map_fst (e : Entity) (s : ChunkLoadState)
    (chunks : List (Entity × ChunkRec)) :
    (setChunkState e s chunks).map Prod.fst = chunks.map Prod.fst := by
  induction chunks with
  | nil => rfl
  | cons p t ih =>
    obtain ⟨e', c'⟩ := p
    simp only [setChunkState, List.map_cons] at *
    by_cases he : e' = e
    · rw [if_pos he]
      simp [ih]
    · rw [if_neg he]
      simp [ih]

theorem mem_setChunkState {e : Entity} {s : ChunkLoadState}
    {chunks : List (Entity × ChunkRec)} {x : Entity} {c' : ChunkRec} :
    (x, c') ∈ setChunkState e s chunks ↔
      ∃ c, (x, c) ∈ chunks ∧ c' = (if x = e then ⟨c.pos, s⟩ else c) := by
  rw [setChunkState, List.mem_map]
  constructor
  · rintro ⟨⟨x0, c0⟩, hmem, heq⟩
    by_cases hx : x0 = e
    · rw [if_pos hx] at heq
      obtain ⟨rfl, rfl⟩ := Prod.mk.injEq .. |>.mp heq
      exact ⟨c0, hmem, by rw [if_pos hx]⟩
    · rw [if_neg hx] at heq
      obtain ⟨rfl, rfl⟩ := Prod.mk.injEq .. |>.mp heq
      exact ⟨c0, hmem, by rw [if_neg hx]⟩
  · rintro ⟨c, hmem, rfl⟩
    refine ⟨(x, c), hmem, ?_⟩
    by_cases hx : x = e
    · rw [if_pos hx, if_pos hx]
    · rw [if_neg hx, if_neg hx]

/-! ### Properties of the spawn-request batch used by the lifecycle proofs -/

theorem spawn_inner_some {R : Int} {pos : IVec2} {map : List (IVec2 × Entity)}
    {dx dy : Int} {c : IVec2}
    (h : (if dx ^ 2 + dy ^ 2 ≥ R ^ 2 then none
          else if lookupA map (pos.add ⟨dx, dy⟩) = none then some (pos.add ⟨dx, dy⟩)
          else none) = some c) :
    c = pos.add ⟨dx, dy⟩ ∧ lookupA map c = none ∧ dx ^ 2 + dy ^ 2 < R ^ 2 := by
  split at h
  · cases h
  · rename_i hge
    split at h
    · rename_i hlook
      obtain rfl := Option.some.inj h
      exact ⟨rfl, hlook, by omega⟩
    · cases h

theorem loadRadiusChunks_lookup_none {R : Int} {pos : IVec2} {map : List (IVec2 × Entity)} :
    ∀ c ∈ loadRadiusChunks R pos map, lookupA map c = none := by
  intro c hc
  rw [loadRadiusChunks, List.mem_flatMap] at hc
  obtain ⟨dx, _, hc⟩ := hc
  rw [List.mem_filterMap] at hc
  obtain ⟨dy, _, hs⟩ := hc
  obtain ⟨hce, hlook, _⟩ := spawn_inner_some hs
  exact hlook

theorem spawnRequests_lookup_none {R : Int} {pos : IVec2} {map : List (IVec2 × Entity)} :
    ∀ c ∈ spawnRequests R pos map, lookupA map c = none :=
  fun c hc => loadRadiusChunks_lookup_none c (mem_sortByKey.mp hc)

theorem rangeIncl_nodup (a b : Int) : (rangeIncl a b).Nodup :=
  List.Nodup.map (fun i j h => by omega) (List.nodup_range _)

theorem loadRadiusChunks_nodup (R : Int) (pos : IVec2) (map : List (IVec2 × Entity)) :
    (loadRadiusChunks R pos map).Nodup := by
  rw [loadRadiusChunks]
  refine List.nodup_flatMap.mpr ⟨?_, ?_⟩
  · intro dx _
    refine List.Nodup.filterMap ?_ (rangeIncl_nodup _ _)
    intro dy dy' c hdy hdy'
    rw [Option.mem_def] at hdy hdy'
    obtain ⟨h1, _, _⟩ := spawn_inner_some hdy
    obtain ⟨h2, _, _⟩ := spawn_inner_some hdy'
    rw [h1] at h2
    have hy := congrArg IVec2.y h2
    simp only [IVec2.add] at hy
    omega
  · refine (rangeIncl_nodup (-R) R).imp ?_
    intro dx dx' hne
    intro c hc1 hc2
    rw [List.mem_filterMap] at hc1 hc2
    obtain ⟨dy, _, hs⟩ := hc1
    obtain ⟨dy', _, hs'⟩ := hc2
    obtain ⟨h1, _, _⟩ := spawn_inner_some hs
    obtain ⟨h2, _, _⟩ := spawn_inner_some hs'
    rw [h1] at h2
    have hx := congrArg IVec2.x h2
    simp only [IVec2.add] at hx
    exact hne (by omega)

theorem spawnRequests_nodup (R : Int) (pos : IVec2) (map : List (IVec2 × Entity)) :
    (spawnRequests R pos map).Nodup :=
  ((sortByKey_perm originKey _).nodup_iff).mpr (loadRadiusChunks_nodup R pos map)

/-! ### Invariant preservation along the tick -/

/-- Constructor for `Inv` over explicit components (keeps goals free of
structure-projection noise). -/
theorem Inv.mk' {m : List (IVec2 × Entity)} {ch : List (Entity × ChunkRec)}
    {q : List Entity} {n : Entity}
    (h1 : (m.map Prod.fst).Nodup) (h2 : (ch.map Prod.fst).Nodup)
    (h3 : ∀ p e, (p, e) ∈ m → ∃ c, (e, c) ∈ ch ∧ c.pos = p)
    (h4 : ∀ e c, (e, c) ∈ ch → lookupA m c.pos = some e)
    (h5 : ∀ e ∈ ch.map Prod.fst, e < n) : Inv ⟨m, ch, q, n⟩ :=
  ⟨h1, h2, h3, h4, h5⟩

theorem Inv.setState {w : ChunkWorld} (hInv : Inv w) (e : Entity) (s : ChunkLoadState)
    (q : List Entity) :
    Inv { map := w.map, chunks := setChunkState e s w.chunks, queue := q, next := w.next } := by
  refine Inv.mk' hInv.mapNodup ?_ ?_ ?_ ?_
  · rw [setChunkState_map_fst]
    exact hInv.chunksNodup
  · intro p e' hmem
    obtain ⟨c, hc, hpos⟩ := hInv.mapChunks p e' hmem
    refine ⟨if e' = e then ⟨c.pos, s⟩ else c, mem_setChunkState.mpr ⟨c, hc, rfl⟩, ?_⟩
    by_cases he : e' = e
    · rw [if_pos he]
      exact hpos
    · rw [if_neg he]
      exact hpos
  · intro e' c' hmem
    obtain ⟨c, hc, rfl⟩ := mem_setChunkState.mp hmem
    have hl := hInv.chunksMap e' c hc
    by_cases he : e' = e
    · rw [if_pos he]
      exact hl
    · rw [if_neg he]
      exact hl
  · intro e' hmem
    rw [setChunkState_map_fst] at hmem
    exact hInv.fresh e' hmem

theorem Inv.withQueue {w : ChunkWorld} (hInv : Inv w) (q : List Entity) :
    Inv { w with queue := q } :=
  ⟨hInv.mapNodup, hInv.chunksNodup, hInv.mapChunks, hInv.chunksMap, hInv.fresh⟩

theorem inv_genLoop (n : Nat) (w : ChunkWorld) (hInv : Inv w) : Inv (genLoop n w) := by
  induction n generalizing w with
  | zero => exact hInv
  | succ n ih =>
    rcases hp : popBack w.queue with _ | ⟨q, e⟩
    · simp only [genLoop, hp]
      exact ih w hInv
    · simp only [genLoop, hp]
      cases hl : lookupA w.chunks e with
      | some c => exact ih _ (hInv.setState e .Done q)
      | none => exact ih _ (hInv.withQueue q)

theorem inv_generateChunks (R : Int) (w : ChunkWorld) (hInv : Inv w) :
    Inv (generateChunks R w) :=
  inv_genLoop _ w hInv

theorem inv_loadChunkData (added : List Entity) (w : ChunkWorld) (hInv : Inv w) :
    Inv (loadChunkData added w) := by
  induction added generalizing w with
  | nil => exact hInv
  | cons e rest ih =>
    simp only [loadChunkData]
    split
    · split
      · exact ih _ (hInv.setState e .Generate (e :: w.queue))
      · exact ih _ hInv
    · exact ih _ hInv

theorem inv_prepareForUnload (despawns : List (IVec2 × Entity)) (w : ChunkWorld)
    (hInv : Inv w) : Inv (prepareForUnload despawns w) := by
  induction despawns generalizing w with
  | nil => exact hInv
  | cons pe rest ih =>
    simp only [prepareForUnload]
    split
    · exact ih _ (hInv.setState pe.2 .Unload w.queue)
    · exact ih _ hInv

theorem inv_createChunks :
    ∀ (reqs : List IVec2) (w : ChunkWorld), Inv w → reqs.Nodup →
      (∀ r ∈ reqs, lookupA w.map r = none) → Inv (createChunks reqs w).1 := by
  intro reqs
  induction reqs with
  | nil =>
    intro w hInv _ _
    exact hInv
  | cons r rest ih =>
    intro w hInv hnd hnone
    rw [List.nodup_cons] at hnd
    have hr : lookupA w.map r = none := hnone r (List.mem_cons_self _ _)
    have hmapEq : insertA w.map r w.next = w.map ++ [(r, w.next)] := insertA_eq_append hr _
    have hInv1 : Inv ⟨insertA w.map r w.next,
        w.chunks ++ [(w.next, ⟨r, ChunkLoadState.Load⟩)], w.queue, w.next + 1⟩ := by
      refine Inv.mk' ?_ ?_ ?_ ?_ ?_
      · rw [hmapEq, List.map_append, List.nodup_append]
        refine ⟨hInv.mapNodup, by simp, ?_⟩
        intro a ha hb
        simp at hb
        subst hb
        exact (lookupA_eq_none_iff.mp hr) ha
      · rw [List.map_append, List.nodup_append]
        refine ⟨hInv.chunksNodup, by simp, ?_⟩
        intro a ha hb
        simp at hb
        subst hb
        exact absurd (hInv.fresh _ ha) (lt_irrefl _)
      · intro p e hmem
        rw [hmapEq] at hmem
        rcases List.mem_append.mp hmem with h' | h'
        · obtain ⟨c, hc, hpos⟩ := hInv.mapChunks p e h'
          exact ⟨c, List.mem_append_left _ hc, hpos⟩
        · simp at h'
          refine ⟨⟨r, ChunkLoadState.Load⟩, List.mem_append_right _ (by rw [h'.2]; simp), ?_⟩
          rw [h'.1]
      · intro e c hmem
        rcases List.mem_append.mp hmem with h' | h'
        · have hl := hInv.chunksMap e c h'
          rw [hmapEq]
          exact lookupA_append_of_some _ hl
        · simp at h'
          rw [h'.1, h'.2, hmapEq, lookupA_append_of_none _ hr, lookupA, if_pos rfl]
      · intro e hmem
        rw [List.map_append] at hmem
        rcases List.mem_append.mp hmem with h' | h'
        · exact Nat.lt_trans (hInv.fresh e h') (Nat.lt_succ_self _)
        · simp at h'
          rw [h']
          exact Nat.lt_succ_self _
    have hnone1 : ∀ r' ∈ rest,
        lookupA (insertA w.map r w.next) r' = none := by
      intro r' hr'
      rw [hmapEq, lookupA_append_of_none _ (hnone r' (List.mem_cons_of_mem _ hr'))]
      have hne : r' ≠ r := fun hh => hnd.1 (hh ▸ hr')
      rw [lookupA, if_neg (fun hh => hne hh.symm)]
      rfl
    simp only [createChunks]
    exact ih _ hInv1 hnd.2 hnone1

theorem lookupA_eq_none_of_sublist {α β : Type} [DecidableEq α] {m' m : List (α × β)}
    {k : α} (hsub : m'.Sublist m) (h : lookupA m k = none) : lookupA m' k = none := by
  rw [lookupA_eq_none_iff] at h ⊢
  intro hk
  exact h ((hsub.map Prod.fst).subset hk)

theorem Inv.posInj {w : ChunkWorld} (hInv : Inv w) :
    ∀ e c e' c', (e, c) ∈ w.chunks → (e', c') ∈ w.chunks → c.pos = c'.pos → e = e' := by
  intro e c e' c' h1 h2 hpos
  have ha := hInv.chunksMap e c h1
  have hb := hInv.chunksMap e' c' h2
  rw [hpos] at ha
  rw [ha] at hb
  exact Option.some.inj hb

theorem destroyLoop_spec :
    ∀ (l : List (Entity × ChunkRec)) (m : List (IVec2 × Entity)) (acc : List Entity),
      (m.map Prod.fst).Nodup →
      (l.map Prod.fst).Nodup →
      (∀ e c, (e, c) ∈ l → lookupA m c.pos = some e) →
      (∀ e c e' c', (e, c) ∈ l → (e', c') ∈ l → c.pos = c'.pos → e = e') →
      ∃ m' acc', destroyLoop l m acc = some (m', acc') ∧
        m'.Sublist m ∧
        (m'.map Prod.fst).Nodup ∧
        acc' = ((l.filter (fun p => p.2.state = ChunkLoadState.Unload)).map
          Prod.fst).reverse ++ acc ∧
        (∀ p : IVec2, (∃ x ∈ l, x.2.state = ChunkLoadState.Unload ∧ x.2.pos = p) →
          lookupA m' p = none) ∧
        (∀ p : IVec2, (∀ x ∈ l, x.2.state = ChunkLoadState.Unload → x.2.pos ≠ p) →
          lookupA m' p = lookupA m p) := by
  intro l
  induction l with
  | nil =>
    intro m acc hmnd _ _ _
    refine ⟨m, acc, rfl, List.Sublist.refl _, hmnd, by simp, ?_, ?_⟩
    · rintro p ⟨x, hx, _⟩
      simp at hx
    · intro p _
      rfl
  | cons ec rest ih =>
    intro m acc hmnd hlnd H2 H3
    obtain ⟨e0, c0⟩ := ec
    rw [List.map_cons, List.nodup_cons] at hlnd
    rcases hstate : c0.state with _ | _ | _ | _
    case Unload =>
      have hlook : lookupA m c0.pos = some e0 := H2 e0 c0 (List.mem_cons_self _ _)
      have hm1nd : ((removeA m c0.pos).map Prod.fst).Nodup :=
        List.Nodup.sublist ((removeA_sublist m c0.pos).map Prod.fst) hmnd
      have H2' : ∀ e c, (e, c) ∈ rest → lookupA (removeA m c0.pos) c.pos = some e := by
        intro e c hm
        have hne : e ≠ e0 := by
          intro hh
          subst hh
          exact hlnd.1 (List.mem_map.mpr ⟨(e, c), hm, rfl⟩)
        have hpos : c.pos ≠ c0.pos := by
          intro hh
          exact hne (H3 e c e0 c0 (List.mem_cons_of_mem _ hm) (List.mem_cons_self _ _) hh)
        rw [lookupA_removeA_ne hpos]
        exact H2 e c (List.mem_cons_of_mem _ hm)
      have H3' : ∀ e c e' c', (e, c) ∈ rest → (e', c') ∈ rest → c.pos = c'.pos → e = e' :=
        fun e c e' c' h1 h2 hp =>
          H3 e c e' c' (List.mem_cons_of_mem _ h1) (List.mem_cons_of_mem _ h2) hp
      obtain ⟨m', acc', heq, hsub, hnd', hacc, hnone, hkeep⟩ :=
        ih (removeA m c0.pos) (e0 :: acc) hm1nd hlnd.2 H2' H3'
      refine ⟨m', acc', ?_, hsub.trans (removeA_sublist m c0.pos), hnd', ?_, ?_, ?_⟩
      · simp only [destroyLoop, hstate, hlook]
        exact heq
      · rw [hacc, List.filter_cons_of_pos (by simp [hstate]), List.map_cons,
          List.reverse_cons, List.append_assoc]
        rfl
      · rintro p ⟨x, hx, hxs, hxp⟩
        rcases List.mem_cons.mp hx with rfl | hx'
        · refine lookupA_eq_none_of_sublist hsub ?_
          rw [← hxp]
          exact lookupA_removeA_self hmnd
        · exact hnone p ⟨x, hx', hxs, hxp⟩
      · intro p hp
        have hne : c0.pos ≠ p := hp (e0, c0) (List.mem_cons_self _ _) hstate
        rw [hkeep p (fun x hx hxs => hp x (List.mem_cons_of_mem _ hx) hxs),
          lookupA_removeA_ne (fun hh => hne hh.symm)]
    all_goals {
      obtain ⟨m', acc', heq, hsub, hnd', hacc, hnone, hkeep⟩ :=
        ih m acc hmnd hlnd.2
          (fun e c hm => H2 e c (List.mem_cons_of_mem _ hm))
          (fun e c e' c' h1 h2 hp =>
            H3 e c e' c' (List.mem_cons_of_mem _ h1) (List.mem_cons_of_mem _ h2) hp)
      refine ⟨m', acc', ?_, hsub, hnd', ?_, ?_, ?_⟩
      · simp only [destroyLoop, hstate]
        exact heq
      · rw [hacc, List.filter_cons_of_neg (by simp [hstate])]
      · rintro p ⟨x, hx, hxs, hxp⟩
        rcases List.mem_cons.mp hx with rfl | hx'
        · rw [hstate] at hxs
          cases hxs
        · exact hnone p ⟨x, hx', hxs, hxp⟩
      · intro p hp
        exact hkeep p (fun x hx hxs => hp x (List.mem_cons_of_mem _ hx) hxs)
    }

theorem destroyChunks_spec (w : ChunkWorld) (hInv : Inv w) :
    ∃ w', destroyChunks w = some w' ∧ Inv w' ∧
      (∀ e c, (e, c) ∈ w.chunks → c.state = ChunkLoadState.Unload →
        lookupA w.map c.pos = some e ∧ lookupA w'.map c.pos = none) := by
  obtain ⟨m', acc', heq, hsub, hnd', hacc, hnone, hkeep⟩ :=
    destroyLoop_spec w.chunks w.map [] hInv.mapNodup hInv.chunksNodup
      (fun e c hm => hInv.chunksMap e c hm) (hInv.posInj)
  have hacc_mem : ∀ e, e ∈ acc' ↔ ∃ c, (e, c) ∈ w.chunks ∧ c.state = .Unload := by
    intro e
    rw [hacc]
    simp only [List.append_nil, List.mem_reverse, List.mem_map, List.mem_filter]
    constructor
    · rintro ⟨⟨e1, c1⟩, ⟨hm, hs⟩, rfl⟩
      exact ⟨c1, hm, by simpa using hs⟩
    · rintro ⟨c, hm, hs⟩
      exact ⟨(e, c), ⟨hm, by simpa using hs⟩, rfl⟩
  refine ⟨⟨m', w.chunks.filter (fun p => p.1 ∉ acc'), w.queue, w.next⟩, ?_, ?_, ?_⟩
  · simp only [destroyChunks, heq]
  · refine Inv.mk' hnd' ?_ ?_ ?_ ?_
    · exact List.Nodup.sublist ((List.filter_sublist _).map Prod.fst) hInv.chunksNodup
    · intro p e hmem
      have hmem0 : (p, e) ∈ w.map := hsub.subset hmem
      obtain ⟨c, hc, hpos⟩ := hInv.mapChunks p e hmem0
      refine ⟨c, ?_, hpos⟩
      rw [List.mem_filter]
      refine ⟨hc, ?_⟩
      simp only [decide_not, Bool.not_eq_eq_eq_not, Bool.not_true, decide_eq_false_iff_not]
      intro hin
      obtain ⟨c2, hc2, hs2⟩ := (hacc_mem e).mp hin
      have hcc : c2 = c := assoc_value_unique hInv.chunksNodup hc2 hc
      rw [hcc] at hs2
      have hn : lookupA m' p = none := hnone p ⟨(e, c), hc, hs2, hpos⟩
      rw [lookupA_of_mem_nodup hnd' hmem] at hn
      cases hn
    · intro e c hmem
      rw [List.mem_filter] at hmem
      obtain ⟨hm, hnotin⟩ := hmem
      simp only [decide_not, Bool.not_eq_eq_eq_not, Bool.not_true,
        decide_eq_false_iff_not] at hnotin
      rw [hkeep c.pos ?_]
      · exact hInv.chunksMap e c hm
      · intro x hx hxs hxp
        have : x.1 = e := hInv.posInj x.1 x.2 e c (by simpa using hx) hm hxp
        apply hnotin
        rw [← this]
        exact (hacc_mem x.1).mpr ⟨x.2, by simpa using hx, hxs⟩
    · intro e hmem
      rw [List.mem_map] at hmem
      obtain ⟨x, hx, rfl⟩ := hmem
      exact hInv.fresh x.1 (List.mem_map.mpr ⟨x, (List.filter_sublist _).subset hx, rfl⟩)
  · intro e c hm hs
    exact ⟨hInv.chunksMap e c hm, hnone c.pos ⟨(e, c), hm, hs, rfl⟩⟩

theorem inv_preDestroy (R : Int) (pos : IVec2) (w : ChunkWorld) (hInv : Inv w) :
    Inv (preDestroy R pos w) := by
  simp only [preDestroy]
  apply inv_prepareForUnload
  apply inv_generateChunks
  apply inv_loadChunkData
  exact inv_createChunks _ _ hInv (spawnRequests_nodup R pos w.map)
    (fun r hr => spawnRequests_lookup_none r hr)

theorem inv_tick {R : Int} {pos : IVec2} {w w' : ChunkWorld} (hInv : Inv w)
    (h : tick R pos w = some w') : Inv w' := by
  obtain ⟨w'', heq, hInv'', _⟩ := destroyChunks_spec (preDestroy R pos w)
    (inv_preDestroy R pos w hInv)
  rw [tick, heq] at h
  obtain rfl := Option.some.inj h
  exact hInv''

theorem inv_reachable {R : Int} {w : ChunkWorld} (h : Reachable R w) : Inv w := by
  induction h with
  | init =>
    refine Inv.mk' (by simp) (by simp) ?_ ?_ (by simp)
    · intro p e hmem
      simp at hmem
    · intro e c hmem
      simp at hmem
  | step pos hr ht ih => exact inv_tick ih ht

/-- C10: in every reachable state of the chunk lifecycle manager, each chunk
entity whose load state is `Unload` when the destruction pass runs has its
coordinate present in the `ChunkMap` mapping to that entity, so the
`world.remove(&chunk.pos).unwrap()` in `destroy_chunks` always succeeds (the
tick never panics), and each destroyed chunk leaves the `ChunkMap` with its
coordinate removed. -/
theorem destroy_pass_sound (R : Int) (pos : IVec2) (w : ChunkWorld)
    (h : Reachable R w) :
    (∀ e c, (e, c) ∈ (preDestroy R pos w).chunks → c.state = ChunkLoadState.Unload →
      lookupA (preDestroy R pos w).map c.pos = some e) ∧
    (∃ w', tick R pos w = some w' ∧
      ∀ e c, (e, c) ∈ (preDestroy R pos w).chunks → c.state = ChunkLoadState.Unload →
        lookupA w'.map c.pos = none) := by
  obtain ⟨w', heq, _, hprop⟩ :=
    destroyChunks_spec (preDestroy R pos w) (inv_preDestroy R pos w (inv_reachable h))
  exact ⟨fun e c hm hs => (hprop e c hm hs).1,
    w', heq, fun e c hm hs => (hprop e c hm hs).2⟩

theorem destroy_pass_sound_witness :
    (∀ e c, (e, c) ∈ (preDestroy 2 ⟨0, 0⟩ ⟨[], [], [], 0⟩).chunks →
      c.state = ChunkLoadState.Unload →
      lookupA (preDestroy 2 ⟨0, 0⟩ ⟨[], [], [], 0⟩).map c.pos = some e) ∧
    (∃ w', tick 2 ⟨0, 0⟩ ⟨[], [], [], 0⟩ = some w' ∧
      ∀ e c, (e, c) ∈ (preDestroy 2 ⟨0, 0⟩ ⟨[], [], [], 0⟩).chunks →
        c.state = ChunkLoadState.Unload → lookupA w'.map c.pos = none) :=
  destroy_pass_sound 2 ⟨0, 0⟩ ⟨[], [], [], 0⟩ Reachable.init

end VxBevy
